import Mathlib

/-!
Verification of the autofeedback grading action.

The development embeds the two source files of the repository:

* `fuzzySearch.ts` — the windowed approximate search (`fuzzySearch`,
  `toWindows`, `jaroSimilarity`, `jaroWinklerSimilarity`);
* `runner.ts` — the timeout plumbing of `run`, the output comparison of
  `runCommand`, and the score aggregation of `runAll`.

Strings are embedded as `List Char`.  The script's floating point arithmetic
on similarity scores is embedded as exact fraction arithmetic: a score is a
pair numerator / denominator (`Frac`), never reduced, with comparisons by
cross multiplication.  Every denominator built below is positive, so the
comparisons agree with the rational value `Frac.toRat` of the score.
-/

/-- An exact, unreduced fraction.  `Frac.toRat` gives its rational value. -/
structure Frac where
  num : Int
  den : Int
deriving DecidableEq, Repr

def Frac.ofNat (n : Nat) : Frac := ⟨(n : Int), 1⟩

def Frac.add (x y : Frac) : Frac := ⟨x.num * y.den + y.num * x.den, x.den * y.den⟩

def Frac.sub (x y : Frac) : Frac := ⟨x.num * y.den - y.num * x.den, x.den * y.den⟩

def Frac.mul (x y : Frac) : Frac := ⟨x.num * y.num, x.den * y.den⟩

def Frac.div (x y : Frac) : Frac := ⟨x.num * y.den, x.den * y.num⟩

/-- Strict comparison by cross multiplication; it is the comparison `<` of
the script's similarity scores (denominators are positive there). -/
def Frac.blt (x y : Frac) : Bool := x.num * y.den < y.num * x.den

/-- The rational value of a fraction. -/
def Frac.toRat (x : Frac) : ℚ := (x.num : ℚ) / (x.den : ℚ)

/-! ## fuzzySearch.ts -/

/-- `str.charAt(i)` (only applied in bounds below, so the default character
is never produced). -/
def charAt (s : List Char) (i : Nat) : Char := s.getD i 'A'

/-- The inner loop of the matching scan of `jaroSimilarity`: the first index
`j` of `[max(0, i - d), min(len2, i + d + 1))` whose character equals
`str1.charAt(i)` and that is not yet matched. -/
def scanWindow (a b : List Char) (used : List Bool) (i : Nat) (d : Int) : Option Nat :=
  let lo : Nat := ((i : Int) - d).toNat
  let hi : Nat := min b.length ((i : Int) + d + 1).toNat
  (List.range' lo (hi - lo)).find? (fun j => charAt b j == charAt a i && !(used.getD j true))

/-- One iteration of the outer matching loop of `jaroSimilarity`: the state is
the `str2Matches` flag array together with the matched index pairs so far. -/
def matchStep (a b : List Char) (d : Int) (st : List Bool × List (Nat × Nat)) (i : Nat) :
    List Bool × List (Nat × Nat) :=
  match scanWindow a b st.1 i d with
  | none => st
  | some j => (st.1.set j true, st.2 ++ [(i, j)])

/-- `maxDist = Math.floor(Math.max(len1, len2) / 2) - 1`. -/
def maxDist (a b : List Char) : Int := ((max a.length b.length) / 2 : Nat) - 1

/-- The greedy matching loop of `jaroSimilarity`: the final `str2Matches`
flags together with the matched index pairs in production order. -/
def jaroMatch (a b : List Char) : List Bool × List (Nat × Nat) :=
  (List.range a.length).foldl (matchStep a b (maxDist a b)) (List.replicate b.length false, [])

/-- The characters of `str1` at its matched positions, in order. -/
def matchedChars1 (a : List Char) (pairs : List (Nat × Nat)) : List Char :=
  pairs.map (fun p => charAt a p.1)

/-- The characters of `str2` at its matched positions, in order (the `k`
walk of the transposition loop visits exactly these). -/
def matchedChars2 (b : List Char) (used : List Bool) : List Char :=
  ((List.range b.length).filter (fun j => used.getD j false)).map (charAt b)

/-- Twice the transposition count: the transposition loop pairs the r-th
matched character of `str1` with the r-th matched character of `str2` and
counts the differing pairs (halved only later, inside the formula). -/
def transpositionsDoubled (a b : List Char) : Nat :=
  let m := jaroMatch a b
  ((matchedChars1 a m.2).zip (matchedChars2 b m.1)).countP (fun p => p.1 != p.2)

/-- `(matches/len1 + matches/len2 + (matches - transpositions/2)/matches) / 3`. -/
def jaroFormula (len1 len2 m t2 : Nat) : Frac :=
  Frac.div
    (Frac.add
      (Frac.add (Frac.div (.ofNat m) (.ofNat len1)) (Frac.div (.ofNat m) (.ofNat len2)))
      (Frac.div (Frac.sub (.ofNat m) (Frac.div (.ofNat t2) (.ofNat 2))) (.ofNat m)))
    (.ofNat 3)

/-- `jaroSimilarity` of fuzzySearch.ts. -/
def jaroSimilarity (a b : List Char) : Frac :=
  if a = b then ⟨1, 1⟩
  else
    let m := (jaroMatch a b).2.length
    if m = 0 then ⟨0, 1⟩
    else jaroFormula a.length b.length m (transpositionsDoubled a b)

/-- The boost count of `jaroWinklerSimilarity`: its loop runs over every
position `i < min(len1, len2, 4)` and counts the positions with equal
characters — it does not stop at the first mismatching position. -/
def winklerBoostCount (a b : List Char) : Nat :=
  (List.range (min (min a.length b.length) 4)).countP (fun i => charAt a i == charAt b i)

/-- `jaroWinklerSimilarity` of fuzzySearch.ts: the Jaro score plus
`prefixLength * 0.25 * (1 - jaro)`. -/
def jaroWinklerSimilarity (a b : List Char) : Frac :=
  if a = b then ⟨1, 1⟩
  else
    let m := (jaroMatch a b).2.length
    if m = 0 then ⟨0, 1⟩
    else
      let jaro := jaroFormula a.length b.length m (transpositionsDoubled a b)
      Frac.add jaro
        (Frac.mul (Frac.mul (.ofNat (winklerBoostCount a b)) (Frac.div (.ofNat 1) (.ofNat 4)))
          (Frac.sub (.ofNat 1) jaro))

/-- The number of equal leading characters of the two strings, stopping at
the first mismatch.  This follows the words of the specification ("count
equal leading characters up to 4 positions") for comparison with the
`winklerBoostCount` the code computes. -/
def leadingMatchCount : List Char → List Char → Nat
  | c :: cs, e :: es => if c == e then leadingMatchCount cs es + 1 else 0
  | _, _ => 0

/-- The score the specification describes for `jaroWinklerSimilarity`: the
boost multiplies the length of the common leading run, capped at 4. -/
def winklerClaimedScore (a b : List Char) : Frac :=
  if a = b then ⟨1, 1⟩
  else
    let m := (jaroMatch a b).2.length
    if m = 0 then ⟨0, 1⟩
    else
      let jaro := jaroFormula a.length b.length m (transpositionsDoubled a b)
      Frac.add jaro
        (Frac.mul (Frac.mul (.ofNat (min (leadingMatchCount a b) 4)) (Frac.div (.ofNat 1) (.ofNat 4)))
          (Frac.sub (.ofNat 1) jaro))

/-- `input.replace(/\r?\n/g, ' ')`: every line break becomes one space (a
carriage return not followed by a line feed stays). -/
def collapseBreaks : List Char → List Char
  | [] => []
  | '\r' :: '\n' :: rest => ' ' :: collapseBreaks rest
  | '\n' :: rest => ' ' :: collapseBreaks rest
  | c :: rest => c :: collapseBreaks rest

/-- `toWindows` of fuzzySearch.ts: all windows of the given size, or the
whole input when it is shorter than the requested size. -/
def toWindows (input : List Char) (size : Nat) : List (List Char) :=
  if size > input.length then [input]
  else (List.range (input.length - size + 1)).map (fun i => (input.drop i).take size)

/-- The indexed `reduce` of `fuzzySearch`: the incumbent is replaced only by
a strictly greater score. -/
def bestWindow (needle : List Char) : Nat → Nat × Frac → List (List Char) → Nat × Frac
  | _, prev, [] => prev
  | idx, prev, w :: rest =>
      let score := jaroSimilarity w needle
      bestWindow needle (idx + 1) (if Frac.blt prev.2 score then (idx, score) else prev) rest

/-- The index the `reduce` of `fuzzySearch` selects. -/
def closestIndex (windows : List (List Char)) (needle : List Char) : Nat :=
  (bestWindow needle 0 (0, jaroSimilarity (windows.headD []) needle) windows).1

/-- `fuzzySearch` of fuzzySearch.ts. -/
def fuzzySearch (input toFind : List Char) : List Char :=
  let windows := toWindows (collapseBreaks input) toFind.length
  windows.getD (closestIndex windows toFind) []

/-! ## runner.ts — data model -/

inductive TestComparison
  | exact
  | included
  | regex
deriving DecidableEq, Repr

/-- The `Test` record of runner.ts (the `setup` and `run` shell commands are
external effects and carry no information the embedded logic reads). -/
structure Test where
  name : List Char
  input : Option (List Char)
  output : Option (List Char)
  timeout : Nat
  points : Option Nat
  extra : Bool
  comparison : TestComparison
deriving DecidableEq, Repr

/-- Truthiness of the optional `points` field: absent or zero is falsy. -/
def pointsTruthy (p : Option Nat) : Bool := p.getD 0 != 0

/-- Truthiness test `!field || field == ''` applied to the optional string
fields `input` and `output`. -/
def emptyField (o : Option (List Char)) : Bool := (o.getD []).isEmpty

/-! ## runner.ts — output comparison (`runCommand`) -/

/-- `text.replace(/\r\n/gi, '\n')`. -/
def replaceCRLF : List Char → List Char
  | [] => []
  | '\r' :: '\n' :: rest => '\n' :: replaceCRLF rest
  | c :: rest => c :: replaceCRLF rest

/-- `String.prototype.trim`: drop whitespace from both ends. -/
def jsTrim (s : List Char) : List Char :=
  ((s.dropWhile Char.isWhitespace).reverse.dropWhile Char.isWhitespace).reverse

/-- `normalizeLineEndings` of runner.ts. -/
def normalizeLineEndings (s : List Char) : List Char := jsTrim (replaceCRLF s)

/-- `needle.isPrefixOf hay`, written out for `includesStr`. -/
def startsWithList : List Char → List Char → Bool
  | [], _ => true
  | _ :: _, [] => false
  | c :: cs, e :: es => c == e && startsWithList cs es

/-- `hay.includes(needle)` of JavaScript. -/
def includesStr : List Char → List Char → Bool
  | [], n => startsWithList n []
  | c :: t, n => startsWithList n (c :: t) || includesStr t n

/-- The decision part of `runCommand` after the child exited with code 0
(runner.ts lines 237–388): `some` is a pass carrying the returned captured
output, `none` is a thrown comparison error.  The regex engine is an
external collaborator and is passed in as `regexMatch pattern actual`. -/
def runCommandCheck (regexMatch : List Char → List Char → Bool) (test : Test)
    (output : List Char) : Option (List Char) :=
  if emptyField test.output && emptyField test.input then some output
  else
    let expected := normalizeLineEndings (test.output.getD [])
    let actual := normalizeLineEndings output
    match test.comparison with
    | .exact => if actual ≠ expected then none else some output
    | .regex => if !(regexMatch (test.output.getD []) actual) then none else some output
    | .included => if !(includesStr actual expected) then none else some output

/-! ## runner.ts — timeout plumbing (`run`) -/

/-- `let timeout = (test.timeout || 1) * 60 * 1000 || 30000` of `run`. -/
def effectiveTimeout (timeout : Nat) : Nat :=
  let ms := (if timeout = 0 then 1 else timeout) * 60 * 1000
  if ms = 0 then 30000 else ms

/-- `timeout -= elapsedMs`: the millisecond budget `runCommand` receives
after a setup that took `elapsedMs` wall-clock milliseconds. -/
def remainingTimeout (timeout elapsedMs : Nat) : Int :=
  (effectiveTimeout timeout : Int) - (elapsedMs : Int)

/-! ## runner.ts — aggregation (`runAll`) -/

/-- The mutable tallies of `runAll`. -/
structure SuiteState where
  points : Nat
  availablePoints : Nat
  passed : Nat
  numtests : Nat
  hasPoints : Bool
  failed : Bool
  passing : List (List Char)
  failing : List (List Char)
deriving DecidableEq, Repr

def initialSuite : SuiteState := ⟨0, 0, 0, 0, false, false, [], []⟩

/-- One iteration of the `runAll` loop; `ok` tells whether `run` resolved
(no exception). -/
def runAllStep (s : SuiteState) (t : Test) (ok : Bool) : SuiteState :=
  let s1 : SuiteState := { s with numtests := s.numtests + 1 }
  let s2 : SuiteState :=
    if pointsTruthy t.points then
      { s1 with
        hasPoints := true
        availablePoints :=
          if !t.extra then s1.availablePoints + t.points.getD 0 else s1.availablePoints }
    else s1
  if ok then
    let s3 : SuiteState :=
      if pointsTruthy t.points then { s2 with points := s2.points + t.points.getD 0 } else s2
    { s3 with passing := s3.passing ++ [t.name], passed := s3.passed + 1 }
  else
    let s3 : SuiteState := { s2 with failing := s2.failing ++ [t.name] }
    if !t.extra then { s3 with failed := true } else s3

/-- The tallies of `runAll` over a test list, given each test's outcome. -/
def runAllState (l : List (Test × Bool)) : SuiteState :=
  l.foldl (fun s p => runAllStep s p.1 p.2) initialSuite

/-- The extra credit `runAll` reports when `points > availablePoints`. -/
def extraCreditPoints (s : SuiteState) : Nat :=
  if s.availablePoints < s.points then s.points - s.availablePoints else 0

/-! ### Per-class view of the greedy matching (used for the symmetry proof) -/

/-- The window condition of the inner scan, `|i - j| <= maxDist`, on its own. -/
def windowPred (d : Int) (i j : Nat) : Bool :=
  decide ((i : Int) - d ≤ (j : Int)) && decide ((j : Int) ≤ (i : Int) + d)

/-- The greedy matching restricted to one character class: the driver
positions `A` are processed in order, each matched to the first remaining
target position of `B` inside its window. -/
def classGreedy (d : Int) : List Nat → List Nat → List (Nat × Nat)
  | [], _ => []
  | i :: A, B =>
    match B.find? (windowPred d i) with
    | none => classGreedy d A B
    | some j => (i, j) :: classGreedy d A (B.erase j)

/-- The positions of a character inside a string, ascending. -/
def occList (s : List Char) (c : Char) : List Nat :=
  (List.range s.length).filter (fun k => charAt s k == c)

/-- The positions of a character that the flag array has not yet matched. -/
def availList (b : List Char) (used : List Bool) (c : Char) : List Nat :=
  (occList b c).filter (fun j => !(used.getD j false))

/-- The suite of claim C1: three non-extra tests worth 10, 20 and 30 points
— the first fails, the others pass — and one passing extra-credit test worth
15 points. -/
def c1Tests : List (Test × Bool) :=
  [ (⟨"first".toList, none, none, 1, some 10, false, .included⟩, false),
    (⟨"second".toList, none, none, 1, some 20, false, .included⟩, true),
    (⟨"third".toList, none, none, 1, some 30, false, .included⟩, true),
    (⟨"bonus".toList, none, none, 1, some 15, true, .included⟩, true) ]

/-! # Theorems -/

set_option maxRecDepth 20000

/-! ## Helper lemmas -/

theorem runAllStep_failed (s : SuiteState) (t : Test) (ok : Bool) :
    (runAllStep s t ok).failed = (s.failed || (!ok && !t.extra)) := by
  unfold runAllStep
  cases ok <;> cases he : t.extra <;> by_cases hp : pointsTruthy t.points <;> simp [hp, he]

theorem runAllState_foldl_failed (l : List (Test × Bool)) (s : SuiteState) :
    (l.foldl (fun s p => runAllStep s p.1 p.2) s).failed
      = (s.failed || l.any (fun p => !p.2 && !p.1.extra)) := by
  induction l generalizing s with
  | nil => simp
  | cons p l ih => simp [ih, runAllStep_failed, Bool.or_assoc]

theorem includesStr_nil (h : List Char) : includesStr h [] = true := by
  induction h with
  | nil => rfl
  | cons c t ih => simp [includesStr, startsWithList]

theorem Frac.blt_iff_toRat (x y : Frac) (hx : 0 < x.den) (hy : 0 < y.den) :
    x.blt y = true ↔ x.toRat < y.toRat := by
  unfold Frac.blt Frac.toRat
  rw [div_lt_div_iff₀ (by exact_mod_cast hx) (by exact_mod_cast hy)]
  rw [decide_eq_true_iff]
  constructor
  · intro h; exact_mod_cast h
  · intro h; exact_mod_cast h

theorem jaroMatch_nil_right (a : List Char) : jaroMatch a [] = ([], []) := by
  unfold jaroMatch
  have hstep : ∀ st, ∀ i, matchStep a [] (maxDist a []) st i = st := by
    intro st i
    simp [matchStep, scanWindow]
  have : ∀ (L : List Nat) (st : List Bool × List (Nat × Nat)),
      L.foldl (matchStep a [] (maxDist a [])) st = st := by
    intro L
    induction L with
    | nil => intro st; rfl
    | cons k L ih => intro st; rw [List.foldl_cons, hstep]; exact ih st
  rw [this]
  rfl

theorem jaroMatch_pairs_nonempty_lengths (a b : List Char)
    (h : (jaroMatch a b).2.length ≠ 0) : 0 < a.length ∧ 0 < b.length := by
  constructor
  · by_contra hl
    have ha : a = [] := by
      cases a with
      | nil => rfl
      | cons c t => simp at hl
    subst ha
    exact h rfl
  · by_contra hl
    have hb : b = [] := by
      cases b with
      | nil => rfl
      | cons c t => simp at hl
    subst hb
    rw [jaroMatch_nil_right] at h
    exact h rfl

theorem jaroSimilarity_den_pos (a b : List Char) : 0 < (jaroSimilarity a b).den := by
  unfold jaroSimilarity
  by_cases hab : a = b
  · simp [hab]
  · rw [if_neg hab]
    by_cases hm : (jaroMatch a b).2.length = 0
    · simp [hm]
    · rw [if_neg hm]
      obtain ⟨ha, hb⟩ := jaroMatch_pairs_nonempty_lengths a b hm
      unfold jaroFormula Frac.div Frac.add Frac.sub Frac.ofNat
      simp only []
      positivity

theorem bestWindow_invariant (needle : List Char) :
    ∀ (ws : List (List Char)) (idx : Nat) (prev : Nat × Frac),
      prev.1 ≤ idx → 0 < prev.2.den →
      0 < (bestWindow needle idx prev ws).2.den ∧
      (bestWindow needle idx prev ws = prev ∨
        ∃ k, k < ws.length ∧ (bestWindow needle idx prev ws).1 = idx + k ∧
          (bestWindow needle idx prev ws).2 = jaroSimilarity (ws.getD k []) needle ∧
          prev.2.toRat < (bestWindow needle idx prev ws).2.toRat) ∧
      (∀ k, k < ws.length →
        (jaroSimilarity (ws.getD k []) needle).toRat ≤ (bestWindow needle idx prev ws).2.toRat) ∧
      prev.2.toRat ≤ (bestWindow needle idx prev ws).2.toRat ∧
      (∀ k, k < ws.length → idx + k < (bestWindow needle idx prev ws).1 →
        (jaroSimilarity (ws.getD k []) needle).toRat < (bestWindow needle idx prev ws).2.toRat) := by
  intro ws
  induction ws with
  | nil =>
      intro idx prev h1 h2
      exact ⟨h2, Or.inl rfl, by simp, le_refl _, by simp⟩
  | cons w rest ih =>
      intro idx prev hle hden
      have hsden : 0 < (jaroSimilarity w needle).den := jaroSimilarity_den_pos w needle
      by_cases hblt : Frac.blt prev.2 (jaroSimilarity w needle) = true
      · have hlt : prev.2.toRat < (jaroSimilarity w needle).toRat :=
          (Frac.blt_iff_toRat _ _ hden hsden).mp hblt
        have hunf : bestWindow needle idx prev (w :: rest)
            = bestWindow needle (idx+1) (idx, jaroSimilarity w needle) rest := by
          simp [bestWindow, hblt]
        obtain ⟨ihden, ihprov, ihmax, ihge, ihstrict⟩ :=
          ih (idx+1) (idx, jaroSimilarity w needle) (by simp) (by simpa)
        rw [hunf]
        refine ⟨ihden, ?_, ?_, ?_, ?_⟩
        · rcases ihprov with heq | ⟨k, hk, h1, h2, h3⟩
          · refine Or.inr ⟨0, by simp, ?_, ?_, ?_⟩
            · rw [heq]; simp
            · rw [heq]; simp
            · rw [heq]; exact hlt
          · refine Or.inr ⟨k + 1, by simpa using hk, ?_, ?_, ?_⟩
            · rw [h1]; omega
            · simpa using h2
            · exact hlt.trans h3
        · intro k hk
          match k with
          | 0 => simpa using ihge
          | k + 1 =>
              have := ihmax k (by simpa using hk)
              simpa using this
        · exact hlt.le.trans ihge
        · intro k hk hlt'
          match k with
          | 0 =>
              rcases ihprov with heq | ⟨k', hk', h1, h2, h3⟩
              · rw [heq] at hlt'; simp at hlt'
              · simpa using h3
          | k + 1 =>
              have := ihstrict k (by simpa using hk) (by omega)
              simpa using this
      · have hge0 : (jaroSimilarity w needle).toRat ≤ prev.2.toRat := by
          refine le_of_not_lt (fun h => hblt ?_)
          exact (Frac.blt_iff_toRat _ _ hden hsden).mpr h
        have hunf : bestWindow needle idx prev (w :: rest)
            = bestWindow needle (idx+1) prev rest := by
          simp [bestWindow, hblt]
        obtain ⟨ihden, ihprov, ihmax, ihge, ihstrict⟩ :=
          ih (idx+1) prev (by omega) hden
        rw [hunf]
        refine ⟨ihden, ?_, ?_, ihge, ?_⟩
        · rcases ihprov with heq | ⟨k, hk, h1, h2, h3⟩
          · exact Or.inl heq
          · refine Or.inr ⟨k + 1, by simpa using hk, ?_, ?_, h3⟩
            · rw [h1]; omega
            · simpa using h2
        · intro k hk
          match k with
          | 0 => simpa using hge0.trans ihge
          | k + 1 =>
              have := ihmax k (by simpa using hk)
              simpa using this
        · intro k hk hlt'
          match k with
          | 0 =>
              rcases ihprov with heq | ⟨k', hk', h1, h2, h3⟩
              · rw [heq] at hlt'
                omega
              · simpa using lt_of_le_of_lt hge0 h3
          | k + 1 =>
              have := ihstrict k (by simpa using hk) (by omega)
              simpa using this

theorem toWindows_ne_nil (l : List Char) (s : Nat) : toWindows l s ≠ [] := by
  unfold toWindows
  split
  · simp
  · simp [List.range_eq_nil]

theorem toWindows_length (l : List Char) (s : Nat) (h : s ≤ l.length) :
    (toWindows l s).length = l.length - s + 1 := by
  unfold toWindows
  rw [if_neg (by omega)]
  simp

theorem toWindows_getD (l : List Char) (s k : Nat) (h : s ≤ l.length)
    (hk : k < (toWindows l s).length) :
    (toWindows l s).getD k [] = (l.drop k).take s := by
  unfold toWindows
  rw [if_neg (by omega)]
  rw [toWindows_length l s h] at hk
  have hk2 : k < (List.map (fun i => List.take s (List.drop i l))
      (List.range (l.length - s + 1))).length := by simpa using hk
  rw [List.getD_eq_getElem _ _ hk2, List.getElem_map, List.getElem_range]

theorem toWindows_getD_length (l : List Char) (s k : Nat) (h : s ≤ l.length)
    (hk : k < (toWindows l s).length) :
    ((toWindows l s).getD k []).length = s := by
  rw [toWindows_getD l s k h hk]
  rw [toWindows_length l s h] at hk
  simp
  omega

theorem fuzzySearch_eq_getD (input toFind : List Char) :
    fuzzySearch input toFind
      = (toWindows (collapseBreaks input) toFind.length).getD
          (closestIndex (toWindows (collapseBreaks input) toFind.length) toFind) [] := rfl

theorem closestIndex_lt (windows : List (List Char)) (needle : List Char)
    (h : windows ≠ []) : closestIndex windows needle < windows.length := by
  unfold closestIndex
  obtain ⟨hden, hprov, hmax, hge, hstrict⟩ :=
    bestWindow_invariant needle windows 0 (0, jaroSimilarity (windows.headD []) needle)
      (le_refl 0) (jaroSimilarity_den_pos _ _)
  rcases hprov with heq | ⟨k, hk, h1, h2, h3⟩
  · rw [heq]
    simpa using List.length_pos.mpr h
  · rw [h1]
    simpa using hk

theorem closestIndex_spec (windows : List (List Char)) (needle : List Char) :
    (∀ k, k < windows.length →
      (jaroSimilarity (windows.getD k []) needle).toRat
        ≤ (jaroSimilarity (windows.getD (closestIndex windows needle) []) needle).toRat) ∧
    (∀ k, k < closestIndex windows needle →
      (jaroSimilarity (windows.getD k []) needle).toRat
        < (jaroSimilarity (windows.getD (closestIndex windows needle) []) needle).toRat) := by
  unfold closestIndex
  obtain ⟨hden, hprov, hmax, hge, hstrict⟩ :=
    bestWindow_invariant needle windows 0 (0, jaroSimilarity (windows.headD []) needle)
      (le_refl 0) (jaroSimilarity_den_pos _ _)
  have hval : (bestWindow needle 0 (0, jaroSimilarity (windows.headD []) needle) windows).2
      = jaroSimilarity
          (windows.getD (bestWindow needle 0 (0, jaroSimilarity (windows.headD []) needle) windows).1 [])
          needle := by
    rcases hprov with heq | ⟨k, hk, h1, h2, h3⟩
    · rw [heq]
      cases windows with
      | nil => simp
      | cons w rest => simp
    · rw [h1, h2]
      simp
  constructor
  · intro k hk
    rw [← hval]
    exact hmax k hk
  · intro k hk
    rw [← hval]
    have hklen : k < windows.length := by
      have := closestIndex_lt windows needle ?_
      · unfold closestIndex at this; omega
      · intro hnil
        subst hnil
        rcases hprov with heq | ⟨k', hk', _⟩
        · rw [heq] at hk; simp at hk
        · simp at hk'
    exact hstrict k hklen (by omega)


theorem windowPred_iff (d : Int) (i j : Nat) :
    windowPred d i j = true ↔ ((i : Int) - d ≤ (j : Int) ∧ (j : Int) ≤ (i : Int) + d) := by
  simp [windowPred]

theorem windowPred_symm (d : Int) (i j : Nat) : windowPred d i j = windowPred d j i := by
  rw [Bool.eq_iff_iff, windowPred_iff, windowPred_iff]
  omega

theorem find?_sorted_some_iff (l : List Nat) (p : Nat → Bool) (hl : l.Pairwise (· < ·))
    (x : Nat) :
    l.find? p = some x ↔ (x ∈ l ∧ p x = true ∧ ∀ y ∈ l, p y = true → x ≤ y) := by
  induction l with
  | nil => simp
  | cons c t ih =>
      rw [List.pairwise_cons] at hl
      obtain ⟨hct, htp⟩ := hl
      by_cases hc : p c = true
      · rw [List.find?_cons_of_pos _ hc]
        simp only [Option.some.injEq]
        constructor
        · rintro rfl
          refine ⟨List.mem_cons_self _ _, hc, fun y hy hpy => ?_⟩
          rcases List.mem_cons.mp hy with rfl | hyt
          · exact le_refl _
          · exact (hct y hyt).le
        · rintro ⟨hx, hpx, hmin⟩
          rcases List.mem_cons.mp hx with rfl | hxt
          · rfl
          · have h1 := hct x hxt
            have h2 := hmin c (List.mem_cons_self _ _) hc
            omega
      · rw [List.find?_cons_of_neg _ hc, ih htp]
        constructor
        · rintro ⟨hx, hpx, hmin⟩
          refine ⟨List.mem_cons_of_mem _ hx, hpx, fun y hy hpy => ?_⟩
          rcases List.mem_cons.mp hy with rfl | hyt
          · exact absurd hpy hc
          · exact hmin y hyt hpy
        · rintro ⟨hx, hpx, hmin⟩
          rcases List.mem_cons.mp hx with rfl | hxt
          · exact absurd hpx hc
          · exact ⟨hxt, hpx, fun y hy hpy => hmin y (List.mem_cons_of_mem _ hy) hpy⟩

theorem find?_congr_sorted (l₁ l₂ : List Nat) (p₁ p₂ : Nat → Bool)
    (h₁ : l₁.Pairwise (· < ·)) (h₂ : l₂.Pairwise (· < ·))
    (hiff : ∀ x, (x ∈ l₁ ∧ p₁ x = true) ↔ (x ∈ l₂ ∧ p₂ x = true)) :
    l₁.find? p₁ = l₂.find? p₂ := by
  cases hf : l₁.find? p₁ with
  | none =>
      cases hg : l₂.find? p₂ with
      | none => rfl
      | some y =>
          have hy := List.find?_some hg
          have hym := List.mem_of_find?_eq_some hg
          obtain ⟨hy1, hpy1⟩ := (hiff y).mpr ⟨hym, hy⟩
          have := List.find?_eq_none.mp hf y hy1
          simp [hpy1] at this
  | some x =>
      obtain ⟨hx, hpx, hmin⟩ := (find?_sorted_some_iff l₁ p₁ h₁ x).mp hf
      obtain ⟨hx2, hp2⟩ := (hiff x).mp ⟨hx, hpx⟩
      cases hg : l₂.find? p₂ with
      | none =>
          have := List.find?_eq_none.mp hg x hx2
          simp [hp2] at this
      | some y =>
          obtain ⟨hy, hpy, hmin2⟩ := (find?_sorted_some_iff l₂ p₂ h₂ y).mp hg
          obtain ⟨hy1, hpy1⟩ := (hiff y).mpr ⟨hy, hpy⟩
          have h1 : x ≤ y := hmin y hy1 hpy1
          have h2 : y ≤ x := hmin2 x hx2 hp2
          have hxy : x = y := le_antisymm h1 h2
          rw [hxy]

theorem occList_pairwise (s : List Char) (c : Char) : (occList s c).Pairwise (· < ·) :=
  (List.pairwise_lt_range _).filter _

theorem mem_occList (s : List Char) (c : Char) (k : Nat) :
    k ∈ occList s c ↔ k < s.length ∧ charAt s k = c := by
  simp [occList, List.mem_filter, List.mem_range]

theorem availList_pairwise (b : List Char) (used : List Bool) (c : Char) :
    (availList b used c).Pairwise (· < ·) :=
  (occList_pairwise b c).filter _

theorem mem_availList (b : List Char) (used : List Bool) (c : Char) (j : Nat) :
    j ∈ availList b used c ↔
      j < b.length ∧ charAt b j = c ∧ used.getD j false = false := by
  simp [availList, List.mem_filter, mem_occList, and_assoc]

theorem getD_true_eq_false_iff (l : List Bool) (x : Nat) :
    l.getD x true = false ↔ (x < l.length ∧ l.getD x false = false) := by
  by_cases hx : x < l.length
  · rw [List.getD_eq_getElem _ _ hx, List.getD_eq_getElem _ _ hx]
    simp [hx]
  · rw [List.getD_eq_default _ _ (by omega)]
    simp [hx]

theorem scanWindow_eq_availList (a b : List Char) (used : List Bool) (i : Nat) (d : Int)
    (hlen : used.length = b.length) :
    scanWindow a b used i d = (availList b used (charAt a i)).find? (windowPred d i) := by
  unfold scanWindow
  apply find?_congr_sorted
  · exact List.pairwise_lt_range' _ _
  · exact availList_pairwise _ _ _
  · intro x
    rw [List.mem_range'_1, mem_availList, windowPred_iff]
    rw [Bool.and_eq_true, beq_iff_eq, Bool.not_eq_true', getD_true_eq_false_iff]
    rw [hlen]
    constructor
    · rintro ⟨⟨hlo, hhi⟩, hchar, hxb, hflag⟩
      have h1 : ((i : Int) - d).toNat ≤ x := hlo
      have h2 : x < ((i : Int) - d).toNat + (min b.length ((i : Int) + d + 1).toNat - ((i : Int) - d).toNat) := hhi
      refine ⟨⟨by omega, hchar, hflag⟩, by omega, by omega⟩
    · rintro ⟨⟨hxb, hchar, hflag⟩, hlo, hhi⟩
      refine ⟨⟨by omega, by omega⟩, hchar, by omega, hflag⟩

theorem availList_nodup (b : List Char) (used : List Bool) (c : Char) :
    (availList b used c).Nodup :=
  (availList_pairwise b used c).imp (fun h => Nat.ne_of_lt h)

theorem availList_set_ne (b : List Char) (used : List Bool) (c ck : Char) (j₀ : Nat)
    (hc : c ≠ ck) (hj : charAt b j₀ = ck) :
    availList b (used.set j₀ true) c = availList b used c := by
  unfold availList
  apply List.filter_congr
  intro j hjmem
  rw [mem_occList] at hjmem
  have hne : j₀ ≠ j := by
    rintro rfl
    exact hc (hjmem.2.symm.trans hj)
  simp [List.getD_eq_getElem?_getD, List.getElem?_set_ne hne]

theorem availList_set_self (b : List Char) (used : List Bool) (ck : Char) (j₀ : Nat)
    (hlen : used.length = b.length) (hmem : j₀ ∈ availList b used ck) :
    availList b (used.set j₀ true) ck = (availList b used ck).erase j₀ := by
  rw [(availList_nodup b used ck).erase_eq_filter]
  unfold availList
  rw [List.filter_filter]
  apply List.filter_congr
  intro j hjmem
  rw [mem_occList] at hjmem
  by_cases hje : j = j₀
  · subst hje
    rw [mem_availList] at hmem
    have hjlt : j < used.length := by omega
    simp [List.getD_eq_getElem?_getD, List.getElem?_set_self hjlt]
  · have hne : j₀ ≠ j := fun h => hje h.symm
    simp [List.getD_eq_getElem?_getD, List.getElem?_set_ne hne, hje]

theorem classGreedy_cons (d : Int) (i : Nat) (A B : List Nat) :
    classGreedy d (i :: A) B
      = match B.find? (windowPred d i) with
        | none => classGreedy d A B
        | some j => (i, j) :: classGreedy d A (B.erase j) := rfl

theorem foldl_matchStep_mem (a b : List Char) (d : Int) :
    ∀ (L : List Nat) (used : List Bool) (pairs : List (Nat × Nat)),
      used.length = b.length →
      ∀ i j : Nat,
        ((i, j) ∈ (List.foldl (matchStep a b d) (used, pairs) L).2 ↔
          (i, j) ∈ pairs ∨
            (i, j) ∈ classGreedy d (L.filter (fun k => charAt a k == charAt a i))
              (availList b used (charAt a i))) := by
  intro L
  induction L with
  | nil =>
      intro used pairs hlen i j
      simp [classGreedy]
  | cons k L ih =>
      intro used pairs hlen i j
      rw [List.foldl_cons]
      have hbridge := scanWindow_eq_availList a b used k d hlen
      rw [List.filter_cons]
      by_cases hck : charAt a k = charAt a i
      · rw [if_pos (by simpa using hck)]
        rw [hck] at hbridge
        cases hscan : scanWindow a b used k d with
        | none =>
            have hstep : matchStep a b d (used, pairs) k = (used, pairs) := by
              unfold matchStep
              rw [hscan]
            rw [hstep, ih used pairs hlen i j, classGreedy_cons, ← hbridge, hscan]
        | some j₀ =>
            have hstep : matchStep a b d (used, pairs) k
                = (used.set j₀ true, pairs ++ [(k, j₀)]) := by
              unfold matchStep
              rw [hscan]
            have hj₀mem : j₀ ∈ availList b used (charAt a i) :=
              List.mem_of_find?_eq_some (hbridge ▸ hscan)
            have havail : availList b (used.set j₀ true) (charAt a i)
                = (availList b used (charAt a i)).erase j₀ :=
              availList_set_self b used (charAt a i) j₀ hlen hj₀mem
            rw [hstep, ih (used.set j₀ true) (pairs ++ [(k, j₀)]) (by simpa) i j]
            rw [havail, classGreedy_cons, ← hbridge, hscan]
            simp only [List.mem_append, List.mem_cons, List.mem_singleton,
              List.not_mem_nil, or_false]
            tauto
      · rw [if_neg (by simpa using hck)]
        cases hscan : scanWindow a b used k d with
        | none =>
            have hstep : matchStep a b d (used, pairs) k = (used, pairs) := by
              unfold matchStep
              rw [hscan]
            rw [hstep, ih used pairs hlen i j]
        | some j₀ =>
            have hstep : matchStep a b d (used, pairs) k
                = (used.set j₀ true, pairs ++ [(k, j₀)]) := by
              unfold matchStep
              rw [hscan]
            have hj₀mem : j₀ ∈ availList b used (charAt a k) :=
              List.mem_of_find?_eq_some (hbridge ▸ hscan)
            have hj₀ : charAt b j₀ = charAt a k := ((mem_availList _ _ _ _).mp hj₀mem).2.1
            rw [hstep, ih (used.set j₀ true) (pairs ++ [(k, j₀)]) (by simpa) i j]
            have havail : availList b (used.set j₀ true) (charAt a i)
                = availList b used (charAt a i) :=
              availList_set_ne b used (charAt a i) (charAt a k) j₀ (fun h => hck h.symm) hj₀
            rw [havail]
            simp only [List.mem_append, List.mem_singleton]
            have hik : ¬ ((i, j) = (k, j₀)) := by
              rintro h
              rw [Prod.mk.injEq] at h
              exact hck (h.1 ▸ rfl)
            tauto

theorem getD_replicate_false (n j : Nat) : (List.replicate n false).getD j false = false := by
  by_cases h : j < n
  · rw [List.getD_eq_getElem _ _ (by simpa using h)]
    simp
  · rw [List.getD_eq_default _ _ (by simpa using h)]

theorem availList_replicate (b : List Char) (c : Char) :
    availList b (List.replicate b.length false) c = occList b c := by
  unfold availList
  rw [List.filter_eq_self.mpr]
  intro j hj
  simp [getD_replicate_false]

theorem jaroMatch_mem (a b : List Char) (i j : Nat) :
    (i, j) ∈ (jaroMatch a b).2 ↔
      (i, j) ∈ classGreedy (maxDist a b) (occList a (charAt a i)) (occList b (charAt a i)) := by
  unfold jaroMatch
  rw [foldl_matchStep_mem a b (maxDist a b) (List.range a.length)
    (List.replicate b.length false) [] (by simp) i j]
  rw [availList_replicate]
  simp only [List.not_mem_nil, false_or]
  rfl

theorem classGreedy_nil_right (d : Int) : ∀ B : List Nat, classGreedy d B [] = [] := by
  intro B
  induction B with
  | nil => rfl
  | cons j B ih =>
      rw [classGreedy_cons, List.find?_nil]
      exact ih

theorem classGreedy_drop_target (d : Int) (y : Nat) :
    ∀ (A Y : List Nat), (∀ x ∈ A, windowPred d x y = false) →
      classGreedy d A (y :: Y) = classGreedy d A Y := by
  intro A
  induction A with
  | nil => intro Y h; rfl
  | cons x A ih =>
      intro Y h
      rw [classGreedy_cons, classGreedy_cons]
      rw [List.find?_cons_of_neg _ (by simp [h x (List.mem_cons_self _ _)])]
      cases hf : Y.find? (windowPred d x) with
      | none =>
          show classGreedy d A (y :: Y) = classGreedy d A Y
          exact ih Y (fun x' hx' => h x' (List.mem_cons_of_mem _ hx'))
      | some j' =>
          show (x, j') :: classGreedy d A ((y :: Y).erase j')
              = (x, j') :: classGreedy d A (Y.erase j')
          have hj'y : ¬ (y == j') = true := by
            simp only [beq_iff_eq]
            rintro rfl
            have ht := List.find?_some hf
            rw [h x (List.mem_cons_self _ _)] at ht
            exact Bool.false_ne_true ht
          rw [List.erase_cons_tail hj'y]
          have hrest := ih (Y.erase j') (fun x' hx' => h x' (List.mem_cons_of_mem _ hx'))
          rw [hrest]

theorem classGreedy_swap (d : Int) :
    ∀ (n : Nat) (A B : List Nat), A.length + B.length ≤ n →
      A.Pairwise (· < ·) → B.Pairwise (· < ·) →
      ∀ i j : Nat, ((i, j) ∈ classGreedy d A B ↔ (j, i) ∈ classGreedy d B A) := by
  intro n
  induction n with
  | zero =>
      intro A B hn hA hB i j
      have hA0 : A = [] := List.length_eq_zero.mp (by omega)
      have hB0 : B = [] := List.length_eq_zero.mp (by omega)
      subst hA0; subst hB0
      simp [classGreedy]
  | succ n ih =>
      intro A B hn hA hB i j
      match A, B with
      | [], B => simp [classGreedy, classGreedy_nil_right]
      | x :: A', [] => simp [classGreedy, classGreedy_nil_right]
      | x :: A', y :: B' =>
          have hxA : ∀ x' ∈ A', x < x' := (List.pairwise_cons.mp hA).1
          have hyB : ∀ y' ∈ B', y < y' := (List.pairwise_cons.mp hB).1
          have hA' := (List.pairwise_cons.mp hA).2
          have hB' := (List.pairwise_cons.mp hB).2
          simp only [List.length_cons] at hn
          by_cases hw : windowPred d x y = true
          · have h1 : classGreedy d (x :: A') (y :: B') = (x, y) :: classGreedy d A' B' := by
              rw [classGreedy_cons, List.find?_cons_of_pos _ hw]
              show (x, y) :: classGreedy d A' ((y :: B').erase y) = _
              rw [List.erase_cons_head]
            have h2 : classGreedy d (y :: B') (x :: A') = (y, x) :: classGreedy d B' A' := by
              rw [classGreedy_cons,
                List.find?_cons_of_pos _ (by rw [← windowPred_symm]; exact hw)]
              show (y, x) :: classGreedy d B' ((x :: A').erase x) = _
              rw [List.erase_cons_head]
            rw [h1, h2]
            simp only [List.mem_cons, Prod.mk.injEq]
            rw [ih A' B' (by omega) hA' hB' i j]
            tauto
          · have hw' : ¬ (((x : Int) - d ≤ (y : Int)) ∧ ((y : Int) ≤ (x : Int) + d)) := by
              rw [← windowPred_iff]
              exact hw
            have hcase : ((y : Int) < (x : Int) - d) ∨ ((x : Int) + d < (y : Int)) := by omega
            rcases hcase with hlow | hhigh
            · have hdropL : classGreedy d (x :: A') (y :: B') = classGreedy d (x :: A') B' := by
                apply classGreedy_drop_target
                intro x' hx'
                have hxx' : x ≤ x' := by
                  rcases List.mem_cons.mp hx' with rfl | hmem
                  · exact le_refl _
                  · exact (hxA _ hmem).le
                simp only [Bool.eq_false_iff, Ne, windowPred_iff]
                omega
              have hnone : List.find? (windowPred d y) (x :: A') = none := by
                apply List.find?_eq_none.mpr
                intro x' hx'
                have hxx' : x ≤ x' := by
                  rcases List.mem_cons.mp hx' with rfl | hmem
                  · exact le_refl _
                  · exact (hxA _ hmem).le
                simp only [windowPred_iff]
                omega
              have hdropR : classGreedy d (y :: B') (x :: A') = classGreedy d B' (x :: A') := by
                rw [classGreedy_cons, hnone]
              rw [hdropL, hdropR]
              exact ih (x :: A') B' (by simp; omega) hA hB' i j
            · have hnone : List.find? (windowPred d x) (y :: B') = none := by
                apply List.find?_eq_none.mpr
                intro y' hy'
                have hyy' : y ≤ y' := by
                  rcases List.mem_cons.mp hy' with rfl | hmem
                  · exact le_refl _
                  · exact (hyB _ hmem).le
                simp only [windowPred_iff]
                omega
              have hdropL : classGreedy d (x :: A') (y :: B') = classGreedy d A' (y :: B') := by
                rw [classGreedy_cons, hnone]
              have hdropR : classGreedy d (y :: B') (x :: A') = classGreedy d (y :: B') A' := by
                apply classGreedy_drop_target
                intro y' hy'
                have hyy' : y ≤ y' := by
                  rcases List.mem_cons.mp hy' with rfl | hmem
                  · exact le_refl _
                  · exact (hyB _ hmem).le
                simp only [Bool.eq_false_iff, Ne, windowPred_iff]
                omega
              rw [hdropL, hdropR]
              exact ih A' (y :: B') (by simp; omega) hA' hB i j

theorem classGreedy_mem_sub (d : Int) :
    ∀ (A B : List Nat) (i j : Nat), (i, j) ∈ classGreedy d A B → i ∈ A ∧ j ∈ B := by
  intro A
  induction A with
  | nil =>
      intro B i j h
      simp [classGreedy] at h
  | cons x A ih =>
      intro B i j h
      rw [classGreedy_cons] at h
      cases hf : B.find? (windowPred d x) with
      | none =>
          rw [hf] at h
          have h' : (i, j) ∈ classGreedy d A B := h
          obtain ⟨h1, h2⟩ := ih B i j h'
          exact ⟨List.mem_cons_of_mem _ h1, h2⟩
      | some j' =>
          rw [hf] at h
          have h' : (i, j) ∈ (x, j') :: classGreedy d A (B.erase j') := h
          rcases List.mem_cons.mp h' with he | hm
          · rw [Prod.mk.injEq] at he
            refine ⟨by rw [he.1]; exact List.mem_cons_self _ _, ?_⟩
            rw [he.2]
            exact List.mem_of_find?_eq_some hf
          · obtain ⟨h1, h2⟩ := ih _ i j hm
            exact ⟨List.mem_cons_of_mem _ h1, List.mem_of_mem_erase h2⟩

theorem jaroMatch_pairs_swap (a b : List Char) (i j : Nat) :
    (i, j) ∈ (jaroMatch a b).2 ↔ (j, i) ∈ (jaroMatch b a).2 := by
  have hd : maxDist a b = maxDist b a := by
    unfold maxDist
    rw [Nat.max_comm]
  constructor
  · intro h
    rw [jaroMatch_mem] at h
    have hsub := classGreedy_mem_sub (maxDist a b) (occList a (charAt a i))
      (occList b (charAt a i)) i j h
    have hjcls : charAt b j = charAt a i := ((mem_occList _ _ _).mp hsub.2).2
    have hswap := (classGreedy_swap (maxDist a b)
      ((occList a (charAt a i)).length + (occList b (charAt a i)).length)
      (occList a (charAt a i)) (occList b (charAt a i)) (le_refl _)
      (occList_pairwise _ _) (occList_pairwise _ _) i j).mp h
    rw [jaroMatch_mem, ← hd, hjcls]
    exact hswap
  · intro h
    rw [jaroMatch_mem] at h
    have hsub := classGreedy_mem_sub (maxDist b a) (occList b (charAt b j))
      (occList a (charAt b j)) j i h
    have hicls : charAt a i = charAt b j := ((mem_occList _ _ _).mp hsub.2).2
    have hswap := (classGreedy_swap (maxDist b a)
      ((occList b (charAt b j)).length + (occList a (charAt b j)).length)
      (occList b (charAt b j)) (occList a (charAt b j)) (le_refl _)
      (occList_pairwise _ _) (occList_pairwise _ _) j i).mp h
    rw [jaroMatch_mem, hd, hicls]
    exact hswap

theorem scanWindow_some_unused (a b : List Char) (used : List Bool) (i : Nat) (d : Int)
    (j₀ : Nat) (h : scanWindow a b used i d = some j₀) :
    used.getD j₀ true = false := by
  unfold scanWindow at h
  have hp := List.find?_some h
  simp only [Bool.and_eq_true, Bool.not_eq_true'] at hp
  exact hp.2

theorem foldl_matchStep_invariants (a b : List Char) (d : Int) :
    ∀ (L : List Nat) (used : List Bool) (pairs : List (Nat × Nat)),
      used.length = b.length →
      L.Pairwise (· < ·) →
      (∀ p ∈ pairs, ∀ k ∈ L, p.1 < k) →
      (pairs.map Prod.fst).Pairwise (· < ·) →
      (∀ j : Nat, used.getD j false = true ↔ ∃ i, (i, j) ∈ pairs) →
      (pairs.map Prod.snd).Nodup →
      (∀ p ∈ pairs, p.2 < b.length) →
      (((List.foldl (matchStep a b d) (used, pairs) L).2.map Prod.fst).Pairwise (· < ·)) ∧
      (∀ j : Nat, (List.foldl (matchStep a b d) (used, pairs) L).1.getD j false = true ↔
        ∃ i, (i, j) ∈ (List.foldl (matchStep a b d) (used, pairs) L).2) ∧
      (((List.foldl (matchStep a b d) (used, pairs) L).2.map Prod.snd).Nodup) ∧
      (∀ p ∈ (List.foldl (matchStep a b d) (used, pairs) L).2, p.2 < b.length) ∧
      (∀ p ∈ (List.foldl (matchStep a b d) (used, pairs) L).2, p ∈ pairs ∨ p.1 ∈ L) := by
  intro L
  induction L with
  | nil =>
      intro used pairs hlen hL hbound hfst hflag hsnd hblt
      exact ⟨hfst, hflag, hsnd, hblt, fun p hp => Or.inl hp⟩
  | cons k L ih =>
      intro used pairs hlen hL hbound hfst hflag hsnd hblt
      rw [List.pairwise_cons] at hL
      obtain ⟨hkL, hL'⟩ := hL
      rw [List.foldl_cons]
      cases hscan : scanWindow a b used k d with
      | none =>
          have hstep : matchStep a b d (used, pairs) k = (used, pairs) := by
            unfold matchStep
            rw [hscan]
          rw [hstep]
          obtain ⟨c1, c2, c3, c4, c5⟩ := ih used pairs hlen hL'
            (fun p hp k' hk' => hbound p hp k' (List.mem_cons_of_mem _ hk'))
            hfst hflag hsnd hblt
          exact ⟨c1, c2, c3, c4, fun p hp => (c5 p hp).imp id (List.mem_cons_of_mem _)⟩
      | some j₀ =>
          have hstep : matchStep a b d (used, pairs) k
              = (used.set j₀ true, pairs ++ [(k, j₀)]) := by
            unfold matchStep
            rw [hscan]
          rw [hstep]
          have hunused := scanWindow_some_unused a b used k d j₀ hscan
          rw [getD_true_eq_false_iff] at hunused
          obtain ⟨hj₀lt, hj₀flag⟩ := hunused
          have hj₀b : j₀ < b.length := by omega
          have hnotin : ∀ i, ¬ (i, j₀) ∈ pairs := by
            intro i hi
            have := (hflag j₀).mpr ⟨i, hi⟩
            rw [hj₀flag] at this
            exact Bool.false_ne_true this
          obtain ⟨c1, c2, c3, c4, c5⟩ := ih (used.set j₀ true) (pairs ++ [(k, j₀)])
            (by simpa using hlen) hL'
            (by
              intro p hp k' hk'
              rcases List.mem_append.mp hp with hold | hnew
              · exact hbound p hold k' (List.mem_cons_of_mem _ hk')
              · rw [List.mem_singleton] at hnew
                rw [hnew]
                exact hkL k' hk')
            (by
              rw [List.map_append]
              rw [List.pairwise_append]
              refine ⟨hfst, by simp, ?_⟩
              intro x hx y hy
              simp only [List.map_cons, List.map_nil, List.mem_singleton] at hy
              rw [hy]
              obtain ⟨p, hp, hpx⟩ := List.mem_map.mp hx
              rw [← hpx]
              exact hbound p hp k (List.mem_cons_self _ _))
            (by
              intro j
              by_cases hj : j = j₀
              · subst hj
                constructor
                · intro _
                  exact ⟨k, by simp⟩
                · intro _
                  rw [List.getD_eq_getElem _ _ (by simpa using hj₀lt)]
                  simp [hj₀lt]
              · have hne : j₀ ≠ j := fun h => hj h.symm
                rw [List.getD_eq_getElem?_getD, List.getElem?_set_ne hne,
                  ← List.getD_eq_getElem?_getD, hflag j]
                constructor
                · rintro ⟨i, hi⟩
                  exact ⟨i, List.mem_append.mpr (Or.inl hi)⟩
                · rintro ⟨i, hi⟩
                  rcases List.mem_append.mp hi with hold | hnew
                  · exact ⟨i, hold⟩
                  · rw [List.mem_singleton, Prod.mk.injEq] at hnew
                    exact absurd hnew.2 hj)
            (by
              rw [List.map_append]
              rw [List.nodup_append]
              refine ⟨hsnd, by simp, ?_⟩
              intro x hx
              obtain ⟨p, hp, hpx⟩ := List.mem_map.mp hx
              simp only [List.map_cons, List.map_nil, List.mem_singleton]
              intro he
              rw [he] at hpx
              rcases p with ⟨pi, pj⟩
              simp only at hpx
              rw [hpx] at hp
              exact hnotin pi hp)
            (by
              intro p hp
              rcases List.mem_append.mp hp with hold | hnew
              · exact hblt p hold
              · rw [List.mem_singleton] at hnew
                rw [hnew]
                exact hj₀b)
          refine ⟨c1, c2, c3, c4, ?_⟩
          intro p hp
          rcases c5 p hp with hin | hL
          · rcases List.mem_append.mp hin with hold | hnew
            · exact Or.inl hold
            · rw [List.mem_singleton] at hnew
              rw [hnew]
              exact Or.inr (List.mem_cons_self _ _)
          · exact Or.inr (List.mem_cons_of_mem _ hL)

theorem jaroMatch_invariants (a b : List Char) :
    (((jaroMatch a b).2.map Prod.fst).Pairwise (· < ·)) ∧
    (∀ j : Nat, (jaroMatch a b).1.getD j false = true ↔ ∃ i, (i, j) ∈ (jaroMatch a b).2) ∧
    (((jaroMatch a b).2.map Prod.snd).Nodup) ∧
    (∀ p ∈ (jaroMatch a b).2, p.2 < b.length) ∧
    (∀ p ∈ (jaroMatch a b).2, p.1 < a.length) := by
  unfold jaroMatch
  obtain ⟨c1, c2, c3, c4, c5⟩ := foldl_matchStep_invariants a b (maxDist a b)
    (List.range a.length) (List.replicate b.length false) []
    (by simp) (List.pairwise_lt_range _) (by simp) (by simp)
    (by intro j; simp [getD_replicate_false]) (by simp) (by simp)
  refine ⟨c1, c2, c3, c4, ?_⟩
  intro p hp
  rcases c5 p hp with h | h
  · exact absurd h (List.not_mem_nil _)
  · exact List.mem_range.mp h

theorem sorted_eq_of_mem_iff :
    ∀ (l₁ l₂ : List Nat), l₁.Pairwise (· < ·) → l₂.Pairwise (· < ·) →
      (∀ x, x ∈ l₁ ↔ x ∈ l₂) → l₁ = l₂ := by
  intro l₁
  induction l₁ with
  | nil =>
      intro l₂ h₁ h₂ h
      cases l₂ with
      | nil => rfl
      | cons y t => exact absurd ((h y).mpr (List.mem_cons_self _ _)) (List.not_mem_nil _)
  | cons x t ih =>
      intro l₂ h₁ h₂ h
      cases l₂ with
      | nil => exact absurd ((h x).mp (List.mem_cons_self _ _)) (List.not_mem_nil _)
      | cons y t₂ =>
          have hxy : x = y := by
            have hx2 : x ∈ y :: t₂ := (h x).mp (List.mem_cons_self _ _)
            have hy1 : y ∈ x :: t := (h y).mpr (List.mem_cons_self _ _)
            rcases List.mem_cons.mp hx2 with he | hxt2
            · exact he
            · rcases List.mem_cons.mp hy1 with he | hyt
              · exact he.symm
              · have h1 : y < x := (List.pairwise_cons.mp h₂).1 x hxt2
                have h2 : x < y := (List.pairwise_cons.mp h₁).1 y hyt
                omega
          subst hxy
          have ht₁ := (List.pairwise_cons.mp h₁).2
          have ht₂ := (List.pairwise_cons.mp h₂).2
          congr 1
          apply ih t₂ ht₁ ht₂
          intro z
          constructor
          · intro hz
            have hz2 : z ∈ x :: t₂ := (h z).mp (List.mem_cons_of_mem _ hz)
            rcases List.mem_cons.mp hz2 with he | h2
            · subst he
              have := (List.pairwise_cons.mp h₁).1 z hz
              omega
            · exact h2
          · intro hz
            have hz1 : z ∈ x :: t := (h z).mpr (List.mem_cons_of_mem _ hz)
            rcases List.mem_cons.mp hz1 with he | h2
            · subst he
              have := (List.pairwise_cons.mp h₂).1 z hz
              omega
            · exact h2

theorem flagList_eq_fsts (a b : List Char) :
    (List.range b.length).filter (fun j => (jaroMatch a b).1.getD j false)
      = (jaroMatch b a).2.map Prod.fst := by
  apply sorted_eq_of_mem_iff
  · exact (List.pairwise_lt_range _).filter _
  · exact (jaroMatch_invariants b a).1
  · intro x
    rw [List.mem_filter, List.mem_range]
    constructor
    · rintro ⟨hxb, hflag⟩
      obtain ⟨i, hm⟩ := (((jaroMatch_invariants a b).2.1) x).mp hflag
      have hswap : (x, i) ∈ (jaroMatch b a).2 := (jaroMatch_pairs_swap a b i x).mp hm
      exact List.mem_map.mpr ⟨(x, i), hswap, rfl⟩
    · intro hx
      obtain ⟨p, hp, hfst⟩ := List.mem_map.mp hx
      rcases p with ⟨pi, pj⟩
      simp only at hfst
      have hp' : (x, pj) ∈ (jaroMatch b a).2 := hfst ▸ hp
      have hm : (pj, x) ∈ (jaroMatch a b).2 := (jaroMatch_pairs_swap a b pj x).mpr hp'
      refine ⟨?_, (((jaroMatch_invariants a b).2.1) x).mpr ⟨pj, hm⟩⟩
      exact (jaroMatch_invariants b a).2.2.2.2 (x, pj) hp'

theorem flagList_perm_snds (a b : List Char) :
    List.Perm ((List.range b.length).filter (fun j => (jaroMatch a b).1.getD j false))
      ((jaroMatch a b).2.map Prod.snd) := by
  rw [List.perm_ext_iff_of_nodup]
  · intro x
    rw [List.mem_filter, List.mem_range]
    constructor
    · rintro ⟨hxb, hflag⟩
      obtain ⟨i, hm⟩ := (((jaroMatch_invariants a b).2.1) x).mp hflag
      exact List.mem_map.mpr ⟨(i, x), hm, rfl⟩
    · intro hx
      obtain ⟨p, hp, hsnd⟩ := List.mem_map.mp hx
      rcases p with ⟨pi, pj⟩
      simp only at hsnd
      have hp' : (pi, x) ∈ (jaroMatch a b).2 := hsnd ▸ hp
      refine ⟨(jaroMatch_invariants a b).2.2.2.1 (pi, x) hp', ?_⟩
      exact (((jaroMatch_invariants a b).2.1) x).mpr ⟨pi, hp'⟩
  · exact ((List.pairwise_lt_range _).filter _).imp (fun h => Nat.ne_of_lt h)
  · exact (jaroMatch_invariants a b).2.2.1

theorem jaroMatch_matches_symm (a b : List Char) :
    (jaroMatch a b).2.length = (jaroMatch b a).2.length := by
  have h1 := (flagList_perm_snds a b).length_eq
  have h2 := congrArg List.length (flagList_eq_fsts a b)
  rw [List.length_map] at h1 h2
  omega

theorem matchedChars2_eq (a b : List Char) :
    matchedChars2 b (jaroMatch a b).1 = matchedChars1 b (jaroMatch b a).2 := by
  unfold matchedChars2 matchedChars1
  rw [flagList_eq_fsts a b, List.map_map]
  rfl

theorem transpositions_symm (a b : List Char) :
    transpositionsDoubled a b = transpositionsDoubled b a := by
  unfold transpositionsDoubled
  dsimp only
  rw [← matchedChars2_eq b a, matchedChars2_eq a b]
  rw [← List.zip_swap, List.countP_map]
  apply List.countP_congr
  intro p hp
  simp [bne_iff_ne, ne_comm]

theorem jaroFormula_symm (l1 l2 m t2 : Nat) :
    jaroFormula l1 l2 m t2 = jaroFormula l2 l1 m t2 := by
  unfold jaroFormula Frac.div Frac.add Frac.sub Frac.ofNat
  simp only [Frac.mk.injEq]
  constructor <;> ring

theorem jaroSimilarity_symm_frac (a b : List Char) :
    jaroSimilarity a b = jaroSimilarity b a := by
  by_cases hab : a = b
  · subst hab
    rfl
  · unfold jaroSimilarity
    rw [if_neg hab, if_neg (show ¬ b = a from fun h => hab h.symm)]
    dsimp only
    rw [jaroMatch_matches_symm a b, transpositions_symm a b]
    by_cases h0 : (jaroMatch b a).2.length = 0
    · rw [if_pos h0, if_pos h0]
    · rw [if_neg h0, if_neg h0, jaroFormula_symm]

theorem winklerBoostCount_symm (a b : List Char) :
    winklerBoostCount a b = winklerBoostCount b a := by
  unfold winklerBoostCount
  rw [Nat.min_comm a.length b.length]
  apply List.countP_congr
  intro x hx
  simp only [beq_iff_eq]
  exact eq_comm

theorem jaroWinklerSimilarity_symm_frac (a b : List Char) :
    jaroWinklerSimilarity a b = jaroWinklerSimilarity b a := by
  by_cases hab : a = b
  · subst hab
    rfl
  · unfold jaroWinklerSimilarity
    rw [if_neg hab, if_neg (show ¬ b = a from fun h => hab h.symm)]
    dsimp only
    rw [jaroMatch_matches_symm a b, transpositions_symm a b, winklerBoostCount_symm a b]
    by_cases h0 : (jaroMatch b a).2.length = 0
    · rw [if_pos h0, if_pos h0]
    · rw [if_neg h0, if_neg h0, jaroFormula_symm]


/-! ## Claims -/

/-- **C1.** For the suite of 3 non-extra tests worth 10/20/30 points (first
fails, others pass) plus one passing extra test worth 15: `runAll` tallies
`availablePoints = 60` (the extra test adds nothing to it),
`points = 65` (every passing test's points count, extra or not), reports
`65 - 60 = 5` extra credit, and sets `failed` — and in general the `failed`
flag is exactly "some non-extra test failed", so an extra test's own outcome
never changes it. -/
theorem runAll_tally_spec :
    (runAllState c1Tests).availablePoints = 60 ∧
    (runAllState c1Tests).points = 65 ∧
    extraCreditPoints (runAllState c1Tests) = 5 ∧
    (runAllState c1Tests).failed = true ∧
    (∀ l : List (Test × Bool), (runAllState l).failed = l.any (fun p => !p.2 && !p.1.extra)) := by
  refine ⟨by decide, by decide, by decide, by decide, fun l => ?_⟩
  rw [runAllState, runAllState_foldl_failed]
  rfl

/-- **C2.** `run` resolves the effective timeout as `(timeout || 1) * 60000`
milliseconds (so `0`/absent means one minute) with a 30000 ms fallback when
the product is zero, and hands `runCommand` that budget minus the setup's
elapsed milliseconds — a slow setup shrinks, never extends, the run step's
budget. -/
theorem run_timeout_budget :
    effectiveTimeout 0 = 60000 ∧
    (∀ t : Nat, t ≠ 0 → effectiveTimeout t = t * 60000) ∧
    (∀ t e : Nat, remainingTimeout t e = (effectiveTimeout t : Int) - (e : Int)) ∧
    (∀ t e : Nat, remainingTimeout t e ≤ (effectiveTimeout t : Int)) ∧
    (∀ t e : Nat, 0 < e → remainingTimeout t e < (effectiveTimeout t : Int)) := by
  refine ⟨rfl, fun t ht => ?_, fun t e => rfl, fun t e => ?_, fun t e he => ?_⟩
  · have h60 : t * 60 * 1000 = t * 60000 := by ring
    simp [effectiveTimeout, ht, h60]
  · simp [remainingTimeout]
  · simp only [remainingTimeout]
    omega

theorem run_timeout_budget_witness :
    (5 : Nat) ≠ 0 ∧ effectiveTimeout 5 = 5 * 60000 ∧
    (0 : Nat) < 200 ∧ remainingTimeout 5 200 < (effectiveTimeout 5 : Int) :=
  ⟨by decide, run_timeout_budget.2.1 5 (by decide), by decide,
    run_timeout_budget.2.2.2.2 5 200 (by decide)⟩

/-- **C3, counterexample.** On the spec's own example the search does not
return `"fox"`: the window `"fox"` does not attain a strictly highest score —
it ties with the earlier window `"bro"` (both have one positionally matched
character, score 5/9), and the strict-`>` fold keeps the leftmost. -/
theorem fuzzySearch_fxo_not_fox :
    fuzzySearch "The quick brown fox jumped over the lazy dog.".toList "fxo".toList
      ≠ "fox".toList ∧
    jaroSimilarity "bro".toList "fxo".toList = jaroSimilarity "fox".toList "fxo".toList :=
  ⟨by decide, by decide⟩

/-- **C3, amended.** On haystack `"The quick brown fox jumped over the lazy
dog."` and needle `"fxo"`, `fuzzySearch` returns the window `"bro"` — the
leftmost of the length-3 windows attaining the maximal similarity score —
and `"fox"` only ties with it (equal rational score). -/
theorem fuzzySearch_fxo_returns_bro :
    fuzzySearch "The quick brown fox jumped over the lazy dog.".toList "fxo".toList
      = "bro".toList ∧
    (jaroSimilarity "fox".toList "fxo".toList).toRat
      = (jaroSimilarity "bro".toList "fxo".toList).toRat :=
  ⟨by decide, congrArg Frac.toRat (by decide)⟩

/-- **C4.** The boost loop of `jaroWinklerSimilarity` has no break, so it
counts every equal position among the first four, not the equal *leading*
run its own documentation (and the claim) describes: on `"xb"` vs `"yb"` the
code boosts with count 1 and returns 3/4, while the documented formula
(leading run length 0) gives the bare Jaro score 2/3. -/
theorem jaroWinkler_boost_not_leading :
    (jaroWinklerSimilarity "xb".toList "yb".toList).toRat = 3 / 4 ∧
    (winklerClaimedScore "xb".toList "yb".toList).toRat = 2 / 3 ∧
    winklerBoostCount "xb".toList "yb".toList = 1 ∧
    leadingMatchCount "xb".toList "yb".toList = 0 := by
  have h1 : jaroWinklerSimilarity "xb".toList "yb".toList = ⟨1728, 2304⟩ := by decide
  have h2 : winklerClaimedScore "xb".toList "yb".toList = ⟨1536, 2304⟩ := by decide
  refine ⟨?_, ?_, by decide, by decide⟩
  · rw [h1]; norm_num [Frac.toRat]
  · rw [h2]; norm_num [Frac.toRat]

/-- **C7.** For strings of length at most 1 (negative `maxDist`), the
clamped scan window is empty, the evaluation is total, and the score is 1
when the strings are equal (early return) and 0 otherwise (no match). -/
theorem jaroSimilarity_short_strings :
    ∀ a b : List Char, a.length ≤ 1 → b.length ≤ 1 →
      (jaroSimilarity a b).toRat = if a = b then 1 else 0 := by
  intro a b ha hb
  match a, b with
  | [], [] => simp [jaroSimilarity, Frac.toRat]
  | [], e :: [] =>
      rw [if_neg (by simp)]
      have hm : jaroMatch [] [e] = ([false], []) := by
        simp [jaroMatch, matchStep, scanWindow, maxDist, List.range_succ]
      simp [jaroSimilarity, hm, Frac.toRat]
  | c :: [], [] =>
      rw [if_neg (by simp)]
      have hm : jaroMatch [c] [] = ([], []) := by
        simp [jaroMatch, matchStep, scanWindow, maxDist, List.range_succ]
      simp [jaroSimilarity, hm, Frac.toRat]
  | c :: [], e :: [] =>
      by_cases hce : c = e
      · subst hce
        simp [jaroSimilarity, Frac.toRat]
      · rw [if_neg (by simp [hce])]
        have hm : jaroMatch [c] [e] = ([false], []) := by
          simp [jaroMatch, matchStep, scanWindow, maxDist, List.range_succ]
        rw [jaroSimilarity, if_neg (by simp [hce])]
        simp [hm, Frac.toRat]

theorem jaroSimilarity_short_strings_witness :
    ("a".toList.length ≤ 1 ∧ "b".toList.length ≤ 1 ∧
      (jaroSimilarity "a".toList "b".toList).toRat
        = if "a".toList = "b".toList then 1 else 0) ∧
    ("c".toList.length ≤ 1 ∧ "c".toList.length ≤ 1 ∧
      (jaroSimilarity "c".toList "c".toList).toRat
        = if "c".toList = "c".toList then 1 else 0) :=
  ⟨⟨by decide, by decide,
      jaroSimilarity_short_strings "a".toList "b".toList (by decide) (by decide)⟩,
    ⟨by decide, by decide,
      jaroSimilarity_short_strings "c".toList "c".toList (by decide) (by decide)⟩⟩

/-- **C8.** With captured (already normalized) output `"Hello world"` and
expected `"Hello"`, the comparison fails in `exact` mode (full equality
required) and passes in `included` mode (substring containment). -/
theorem comparison_exact_vs_included :
    ∀ regexMatch : List Char → List Char → Bool,
      runCommandCheck regexMatch
        ⟨"t".toList, none, some "Hello".toList, 1, none, false, .exact⟩
        "Hello world".toList = none ∧
      runCommandCheck regexMatch
        ⟨"t".toList, none, some "Hello".toList, 1, none, false, .included⟩
        "Hello world".toList = some "Hello world".toList :=
  fun _ => ⟨rfl, rfl⟩

/-- **C9.** When both `input` and `output` are absent or empty, `runCommand`
performs no comparison after a clean exit: it returns the captured output
unconditionally, whatever the process printed. -/
theorem no_expectation_unconditional_pass :
    ∀ (regexMatch : List Char → List Char → Bool) (t : Test) (out : List Char),
      emptyField t.input = true → emptyField t.output = true →
      runCommandCheck regexMatch t out = some out := by
  intro rm t out hi ho
  unfold runCommandCheck
  rw [hi, ho]
  rfl

theorem no_expectation_unconditional_pass_witness :
    emptyField (none : Option (List Char)) = true ∧
    emptyField (some ([] : List Char)) = true ∧
    runCommandCheck (fun _ _ => false)
      ⟨"t".toList, none, some [], 1, none, false, .exact⟩
      "anything at all".toList = some "anything at all".toList :=
  ⟨by decide, by decide,
    no_expectation_unconditional_pass (fun _ _ => false)
      ⟨"t".toList, none, some [], 1, none, false, .exact⟩
      "anything at all".toList (by decide) (by decide)⟩

/-- **C10.** In `included` mode with a non-empty `input` and an absent/empty
`output`, the no-expectation shortcut does not apply (it needs `input` empty
too), yet the comparison always succeeds: the expected text normalizes to
the empty string and every string contains the empty substring. -/
theorem included_empty_expected_pass :
    ∀ (regexMatch : List Char → List Char → Bool) (t : Test) (out : List Char),
      t.comparison = TestComparison.included →
      emptyField t.output = true → emptyField t.input = false →
      runCommandCheck regexMatch t out = some out ∧
      (emptyField t.output && emptyField t.input) = false := by
  intro rm t out hc ho hi
  have hcond : (emptyField t.output && emptyField t.input) = false := by
    rw [ho, hi]; rfl
  have hout : t.output.getD [] = [] := by
    have := ho
    unfold emptyField at this
    exact List.isEmpty_iff.mp this
  refine ⟨?_, hcond⟩
  unfold runCommandCheck
  rw [hcond, hc, hout]
  have hnil : normalizeLineEndings ([] : List Char) = [] := rfl
  simp [hnil, includesStr_nil]

theorem included_empty_expected_pass_witness :
    (⟨"t".toList, some "5 3".toList, none, 1, none, false, .included⟩ : Test).comparison
      = TestComparison.included ∧
    emptyField (none : Option (List Char)) = true ∧
    emptyField (some "5 3".toList) = false ∧
    runCommandCheck (fun _ _ => false)
      ⟨"t".toList, some "5 3".toList, none, 1, none, false, .included⟩
      "8".toList = some "8".toList :=
  ⟨by decide, by decide, by decide,
    (included_empty_expected_pass (fun _ _ => false)
      ⟨"t".toList, some "5 3".toList, none, 1, none, false, .included⟩
      "8".toList (by decide) (by decide) (by decide)).1⟩

theorem fuzzySearch_shape_leftmost :
    ∀ input toFind : List Char,
      (toFind.length ≤ (collapseBreaks input).length →
        (fuzzySearch input toFind).length = toFind.length) ∧
      ((collapseBreaks input).length < toFind.length →
        fuzzySearch input toFind = collapseBreaks input) ∧
      closestIndex (toWindows (collapseBreaks input) toFind.length) toFind
          < (toWindows (collapseBreaks input) toFind.length).length ∧
      fuzzySearch input toFind
        = (toWindows (collapseBreaks input) toFind.length).getD
            (closestIndex (toWindows (collapseBreaks input) toFind.length) toFind) [] ∧
      (∀ k, k < (toWindows (collapseBreaks input) toFind.length).length →
        (jaroSimilarity ((toWindows (collapseBreaks input) toFind.length).getD k []) toFind).toRat
          ≤ (jaroSimilarity ((toWindows (collapseBreaks input) toFind.length).getD
              (closestIndex (toWindows (collapseBreaks input) toFind.length) toFind) []) toFind).toRat) ∧
      (∀ k, k < closestIndex (toWindows (collapseBreaks input) toFind.length) toFind →
        (jaroSimilarity ((toWindows (collapseBreaks input) toFind.length).getD k []) toFind).toRat
          < (jaroSimilarity ((toWindows (collapseBreaks input) toFind.length).getD
              (closestIndex (toWindows (collapseBreaks input) toFind.length) toFind) []) toFind).toRat) := by
  intro input toFind
  have hne := toWindows_ne_nil (collapseBreaks input) toFind.length
  have hi0 := closestIndex_lt (toWindows (collapseBreaks input) toFind.length) toFind hne
  have hspec := closestIndex_spec (toWindows (collapseBreaks input) toFind.length) toFind
  refine ⟨?_, ?_, hi0, rfl, hspec.1, hspec.2⟩
  · intro h
    rw [fuzzySearch_eq_getD]
    exact toWindows_getD_length _ _ _ h hi0
  · intro h
    rw [fuzzySearch_eq_getD]
    have hws : toWindows (collapseBreaks input) toFind.length = [collapseBreaks input] := by
      unfold toWindows
      rw [if_pos (by omega)]
    rw [hws]
    have h0 : closestIndex [collapseBreaks input] toFind = 0 := by
      rw [hws] at hi0
      simpa using hi0
    rw [h0]
    rfl

theorem fuzzySearch_shape_leftmost_witness :
    ("ab".toList.length ≤ (collapseBreaks "xaby\ncd".toList).length ∧
      (fuzzySearch "xaby\ncd".toList "ab".toList).length = "ab".toList.length) ∧
    ((collapseBreaks "ab".toList).length < "abcde".toList.length ∧
      fuzzySearch "ab".toList "abcde".toList = collapseBreaks "ab".toList) ∧
    ((0 : Nat) < closestIndex
        (toWindows (collapseBreaks "The quick brown fox jumped over the lazy dog.".toList) 3)
        "fxo".toList ∧
      (jaroSimilarity ((toWindows
            (collapseBreaks "The quick brown fox jumped over the lazy dog.".toList) 3).getD 0 [])
          "fxo".toList).toRat
        < (jaroSimilarity ((toWindows
            (collapseBreaks "The quick brown fox jumped over the lazy dog.".toList) 3).getD
              (closestIndex (toWindows
                (collapseBreaks "The quick brown fox jumped over the lazy dog.".toList) 3)
                "fxo".toList) [])
          "fxo".toList).toRat) :=
  ⟨⟨by decide, (fuzzySearch_shape_leftmost "xaby\ncd".toList "ab".toList).1 (by decide)⟩,
    ⟨by decide, (fuzzySearch_shape_leftmost "ab".toList "abcde".toList).2.1 (by decide)⟩,
    ⟨by decide, (fuzzySearch_shape_leftmost
        "The quick brown fox jumped over the lazy dog.".toList "fxo".toList).2.2.2.2.2 0
        (by decide)⟩⟩

/-- **C5.** For equal-length strings the similarity score is symmetric:
the greedy matching, though driven by the first string's outer loop, produces
the same match count and transposition count in either direction (each
character class independently pairs its two sorted occurrence lists by the
symmetric two-pointer rule), and the score formula is symmetric in the two
lengths.  (The proof does not even need the equal-length hypothesis.) -/
theorem similarity_symmetric :
    ∀ a b : List Char, a.length = b.length →
      (jaroSimilarity a b).toRat = (jaroSimilarity b a).toRat ∧
      (jaroWinklerSimilarity a b).toRat = (jaroWinklerSimilarity b a).toRat :=
  fun a b _ =>
    ⟨congrArg Frac.toRat (jaroSimilarity_symm_frac a b),
      congrArg Frac.toRat (jaroWinklerSimilarity_symm_frac a b)⟩

theorem similarity_symmetric_witness :
    "abcd".toList.length = "bdca".toList.length ∧
    (jaroSimilarity "abcd".toList "bdca".toList).toRat
      = (jaroSimilarity "bdca".toList "abcd".toList).toRat ∧
    (jaroWinklerSimilarity "abcd".toList "bdca".toList).toRat
      = (jaroWinklerSimilarity "bdca".toList "abcd".toList).toRat :=
  ⟨by decide,
    (similarity_symmetric "abcd".toList "bdca".toList (by decide)).1,
    (similarity_symmetric "abcd".toList "bdca".toList (by decide)).2⟩
